import Mathlib

set_option maxRecDepth 10000

/-!
Verification of the unique-IP-counter core against its specification.

The program is embedded shallowly:

* bytes are natural numbers below 256, byte slices are lists of naturals;
* the lock-free two-level bitmap (internal/ipv4_bitset/bitset.go) becomes a
  functional state `Bitset`; the CAS loops of the Go code always succeed in
  the sequential semantics, so `getOrCreate` installs a fresh zero leaf when
  the directory slot is empty and `SetIfNew` performs the read-test-or in one
  step;
* the 64-bit unique counter wraps modulo 2^64 exactly as Go's
  atomic.Uint64.Add does;
* the parser IPv4ByteToUint32 (bitset.go) is translated byte for byte; the
  uint8 subtraction c - '0' becomes (c + 208) % 256, and the remaining
  accumulators never overflow uint32 because part is checked against 255 at
  every step and at most three dots are admitted, so plain naturals are exact;
* the file processor (internal/file_processor/fp.go) becomes pure functions:
  splitToShards / moveStartToNewline read the file through 64 KiB chunks the
  way the ReadAt loop does, processShard consumes its byte section through a
  model of bufio.Reader.ReadSlice with the 2 MiB buffer, and ProcessFile runs
  the shard scanners sequentially (errgroup interleavings do not affect the
  unique count, and cancellation is modelled by a boolean that is constant
  during a run); a read error or bufio.ErrBufferFull is an explicit error
  value.
-/

/-- Model of bytes.IndexByte for the newline byte: index of the first
occurrence of 10 in the list. -/
def idxOf10 : List Nat → Option Nat
  | [] => none
  | c :: rest => if c = 10 then some 0 else (idxOf10 rest).map (· + 1)

/-- One leaf of the bitmap: 1024 64-bit words, total function from word index
to word value (indices outside 0..1023 are never touched by the code). -/
structure Shard16 where
  bits : Nat → Nat

/-- The two-level bitmap with its unique counter (type Bitset in bitset.go).
The directory is a total function from the high 16 bits to an optional leaf. -/
structure Bitset where
  shards : Nat → Option Shard16
  unique : Nat

/-- func New() *Bitset. -/
def Bitset.New : Bitset := ⟨fun _ => none, 0⟩

/-- func (b *Bitset) getOrCreate(hi uint16) *shard16: return the installed
leaf, or install a fresh zero leaf (the CAS succeeds in the sequential
semantics). Returns the leaf together with the updated state. -/
def Bitset.getOrCreate (b : Bitset) (hi : Nat) : Shard16 × Bitset :=
  match b.shards hi with
  | some p => (p, b)
  | none =>
    let n : Shard16 := ⟨fun _ => 0⟩
    (n, { b with shards := fun h => if h = hi then some n else b.shards h })

/-- func (b *Bitset) SetIfNew(u32 uint32) bool: test the bit, set it if it
was clear (the CAS retry loop always succeeds sequentially); true means the
bit went from 0 to 1.  Returns the flag together with the updated state. -/
def Bitset.SetIfNew (b : Bitset) (u32 : Nat) : Bool × Bitset :=
  let hi := u32 >>> 16
  let lo := u32 &&& 65535
  let gc := b.getOrCreate hi
  let sh := gc.1
  let b1 := gc.2
  let idx := lo >>> 6
  let mask := 1 <<< (lo &&& 63)
  let old := sh.bits idx
  if old &&& mask ≠ 0 then (false, b1)
  else
    (true,
      { b1 with
        shards := fun h =>
          if h = hi then some ⟨fun i => if i = idx then old ||| mask else sh.bits i⟩
          else b1.shards h })

/-- func (b *Bitset) AddUnique(n uint64): atomic add, wrapping mod 2^64. -/
def Bitset.AddUnique (b : Bitset) (n : Nat) : Bitset :=
  if n ≠ 0 then { b with unique := (b.unique + n) % 2 ^ 64 } else b

/-- func (b *Bitset) GetUniqueCount() uint64. -/
def Bitset.GetUniqueCount (b : Bitset) : Nat := b.unique

/-- Observation of one bit of the bitmap, with the same address split and the
same word-and-mask test the code uses. -/
def Bitset.testAddr (b : Bitset) (u32 : Nat) : Bool :=
  let hi := u32 >>> 16
  let lo := u32 &&& 65535
  match b.shards hi with
  | none => false
  | some sh => sh.bits (lo >>> 6) &&& (1 <<< (lo &&& 63)) != 0

/-- The loop of IPv4ByteToUint32 over the remaining bytes, carrying acc,
part and dots.  The uint8 step d := c - '0' is (c + 208) % 256; part and acc
cannot overflow uint32 (part is capped at 255 before every further digit,
and acc widens only at the at most three dots), so naturals are exact. -/
def parseLoop : List Nat → Nat → Nat → Nat → Option Nat
  | [], acc, part, dots => if dots ≠ 3 then none else some ((acc <<< 8) ||| part)
  | c :: rest, acc, part, dots =>
    if (c + 208) % 256 ≤ 9 then
      if 255 < part * 10 + (c + 208) % 256 then none
      else parseLoop rest acc (part * 10 + (c + 208) % 256) dots
    else if c = 46 then
      if 3 ≤ dots then none
      else parseLoop rest ((acc <<< 8) ||| part) 0 (dots + 1)
    else none

/-- func (b *Bitset) IPv4ByteToUint32(sb []byte) (uint32, bool); none plays
the role of ok = false. -/
def IPv4ByteToUint32 (sb : List Nat) : Option Nat :=
  if sb.length < 7 ∨ 15 < sb.length then none
  else parseLoop sb 0 0 0

/-- func trimCRLF(b []byte) []byte: strip trailing 10 and 13 bytes. -/
def trimCRLF (b : List Nat) : List Nat :=
  (b.reverse.dropWhile (fun c => c == 10 || c == 13)).reverse

/-- A byte range of the file (type shard in fp.go; the End field is named
stop because end is a Lean keyword). -/
structure Shard where
  start : Nat
  stop : Nat
deriving DecidableEq, Repr

/-- The 64 KiB scan buffer of moveStartToNewline. -/
def chunkSize : Nat := 65536

/-- The ReadAt loop of moveStartToNewline: starting at off, read chunks of
at most 64 KiB, return the byte just after the first newline found, or
collapse to the empty range at stop when a chunk would start at or past
stop.  A read that yields no bytes (off at or past the end of the file while
still below stop) is the error path of the Go code, modelled by none.  The
first argument counts the remaining loop iterations so the recursion is
structural; every iteration that continues advances off by at least one
byte, so the fuel stop - start + 1 passed by moveStartToNewline is never
exhausted and the fuel-out branch (also none) is unreachable. -/
def moveLoop (file : List Nat) (stop : Nat) : Nat → Nat → Option Shard
  | 0, _ => none
  | fuel + 1, off =>
    if stop ≤ off then some ⟨stop, stop⟩
    else if min chunkSize (file.length - off) = 0 then none
    else
      match idxOf10 ((file.drop off).take (min chunkSize (file.length - off))) with
      | some idx => some ⟨off + idx + 1, stop⟩
      | none => moveLoop file stop fuel (off + min chunkSize (file.length - off))

/-- func (fp *FileProcessor) moveStartToNewline(s shard) (shard, error). -/
def moveStartToNewline (file : List Nat) (s : Shard) : Option Shard :=
  if s.start = 0 then some s
  else moveLoop file s.stop (s.stop - s.start + 1) s.start

/-- The for-loop of splitToShards: m shards remain to cut, start is the
naive start of the next one, acc holds the shards built so far in reverse
order.  For every shard after the first the start is aligned and the
previous shard's End is patched to the aligned start, exactly as the Go loop
does through shs[i-1].End = aligned.Start. -/
def splitLoop (file : List Nat) (size part : Nat) : Nat → Nat → List Shard → Option (List Shard)
  | 0, _, acc => some acc.reverse
  | m + 1, start, acc =>
    let e := if m = 0 ∨ size < start + part then size else start + part
    match acc with
    | [] => splitLoop file size part m e [⟨start, e⟩]
    | prev :: rest =>
      match moveStartToNewline file ⟨start, e⟩ with
      | none => none
      | some al => splitLoop file size part m e (al :: ⟨prev.start, al.start⟩ :: rest)

/-- func (fp *FileProcessor) splitToShards(size int64, n int) (shards, error). -/
def splitToShards (file : List Nat) (size n : Nat) : Option (List Shard) :=
  if size = 0 then some []
  else
    let n1 := if size < n then 1 else n
    let part1 := size / n1
    let part := if part1 = 0 then size else part1
    let n2 := if part1 = 0 then 1 else n1
    splitLoop file size part n2 0 []

/-- Errors a shard scanner can return: context cancellation,
bufio.ErrBufferFull (a line longer than the 2 MiB buffer), or a read error.
io.EOF is not an error (the scanner returns success on it). -/
inductive ScanErr where
  | cancelled
  | bufferFull
  | ioError
deriving DecidableEq, Repr

/-- The 2 MiB buffer of the bufio.Reader used by processShard. -/
def bufCap : Nat := 2097152

/-- The read loop of processShard over the remaining bytes of its section.
Each iteration checks the cancellation flag, then models
bufio.Reader.ReadSlice of a newline (the first argument is structural
recursion fuel: every consumed line holds at least its newline byte, so the
fuel length + 1 that processShard passes is never exhausted and the
fuel-out branch is unreachable): a newline within the first 2 MiB of the
remaining bytes yields a full line (processed through trimCRLF, the parser
and SetIfNew); no newline with at least 2 MiB remaining is
bufio.ErrBufferFull; otherwise the reader hits io.EOF and the trailing
fragment is discarded.  Returns the bitset and the local new-count. -/
def scanLoop (cancelled : Bool) : Nat → List Nat → Bitset → Nat → Except ScanErr (Bitset × Nat)
  | 0, _, _, _ => .error .ioError
  | fuel + 1, rem, bs, uniq =>
    if cancelled then .error .cancelled
    else
      match idxOf10 (rem.take bufCap) with
      | some idx =>
        let line := rem.take (idx + 1)
        let step :=
          match IPv4ByteToUint32 (trimCRLF line) with
          | some u =>
            let r := bs.SetIfNew u
            (r.2, if r.1 then uniq + 1 else uniq)
          | none => (bs, uniq)
        scanLoop cancelled fuel (rem.drop (idx + 1)) step.1 step.2
      | none => if bufCap ≤ rem.length then .error .bufferFull else .ok (bs, uniq)

/-- func (fp *FileProcessor) processShard(ctx, f, s) error: scan the section
[s.start, s.stop) of the file; the deferred flush adds the local new-count
to the shared counter on successful exit. -/
def processShard (cancelled : Bool) (file : List Nat) (s : Shard) (bs : Bitset) :
    Except ScanErr Bitset :=
  let sec := (file.drop s.start).take (s.stop - s.start)
  match scanLoop cancelled (sec.length + 1) sec bs 0 with
  | .ok r => .ok (if 0 < r.2 then r.1.AddUnique r.2 else r.1)
  | .error e => .error e

/-- func (fp *FileProcessor) ProcessFile(ctx, fi) error: plan the shards and
run one scanner per shard; the first error wins.  The scanners are run
sequentially here; they commute on the unique count and the claims never
inspect the bitset of a failed run. -/
def ProcessFile (cancelled : Bool) (file : List Nat) (n : Nat) (bs : Bitset) :
    Except ScanErr Bitset :=
  if file.length = 0 then .ok bs
  else
    match splitToShards file file.length n with
    | none => .error .ioError
    | some shs => shs.foldlM (fun b s => processShard cancelled file s b) bs

/-- The unique count of a full run started on a fresh bitset, none when the
run returns an error. -/
def runCount (file : List Nat) (n : Nat) : Option Nat :=
  match ProcessFile false file n Bitset.New with
  | .ok bs => some bs.GetUniqueCount
  | .error _ => none

/-- A sequence of further SetIfNew calls applied to a state. -/
def applySets (b : Bitset) : List Nat → Bitset
  | [] => b
  | x :: xs => applySets (b.SetIfNew x).2 xs

/-- One operation of the membership set API that mutates state: a SetIfNew
call or an AddUnique call. -/
inductive BOp where
  | set (x : Nat)
  | add (n : Nat)

/-- Apply one membership-set operation. -/
def applyOp (b : Bitset) : BOp → Bitset
  | .set x => (b.SetIfNew x).2
  | .add n => b.AddUnique n

/-- Apply a sequence of membership-set operations from left to right. -/
def applyOps (b : Bitset) : List BOp → Bitset
  | [] => b
  | op :: rest => applyOps (applyOp b op) rest

/-- The total amount the AddUnique calls of a sequence add. -/
def totalAdd : List BOp → Nat
  | [] => 0
  | .set _ :: rest => totalAdd rest
  | .add n :: rest => n + totalAdd rest

/-- Shortest decimal representation of a natural number, as ASCII bytes. -/
def decBytes (a : Nat) : List Nat :=
  if a < 10 then [48 + a]
  else decBytes (a / 10) ++ [48 + a % 10]
termination_by a
decreasing_by exact Nat.div_lt_self (by omega) (by omega)

/-- Absolute position of the first newline at or after off. -/
def firstNL (file : List Nat) (off : Nat) : Option Nat :=
  (idxOf10 (file.drop off)).map (off + ·)

/-- Consecutive shards are adjacent: each one's End is the next one's Start. -/
def Chained : List Shard → Prop
  | [] => True
  | [_] => True
  | s :: t :: r => s.stop = t.start ∧ Chained (t :: r)

/-- A shard is an interval inside the file. -/
def WFShard (size : Nat) (s : Shard) : Prop :=
  s.start ≤ s.stop ∧ s.stop ≤ size

/-- A shard is empty or starts one byte past a newline. -/
def alignedStart (file : List Nat) (s : Shard) : Prop :=
  s.start = s.stop ∨ (1 ≤ s.start ∧ file[s.start - 1]? = some 10)

/-- The start of the shard was left unaligned by a chunked newline search
that gave up: some earlier position b (the naive boundary the search
started from) opens a newline-free stretch that covers both the shard's
start and one full 64 KiB scan chunk from b, the chunk clipped at the end
of the file.  The 64 KiB coverage is what the search verified before
giving up; a planner that merely dropped a boundary in arbitrary text
could not provide it. -/
def gapStart (file : List Nat) (s : Shard) : Prop :=
  ∃ b, 1 ≤ b ∧ b < s.start ∧
    ∀ r, b ≤ r → r < max s.start (min (b + 65536) file.length) → file[r]? ≠ some 10

/-- The bytes of scenario S1:
1.1.1.1 / 2.2.2.2 CRLF / garbage / 1.1.1.1 / 255.255.255.255. -/
def s1Bytes : List Nat :=
  [49, 46, 49, 46, 49, 46, 49, 10,
   50, 46, 50, 46, 50, 46, 50, 13, 10,
   103, 97, 114, 98, 97, 103, 101, 10,
   49, 46, 49, 46, 49, 46, 49, 10,
   50, 53, 53, 46, 50, 53, 53, 46, 50, 53, 53, 46, 50, 53, 53, 10]

/-- The nine bytes abcdefg, newline, x. -/
def file9 : List Nat := [97, 98, 99, 100, 101, 102, 103, 10, 120]

/-- A 120000-byte file whose only newline sits at offset 105536: the gap
between the shard boundary at 40000 and that newline exceeds the 64 KiB scan
chunk. -/
def gapFile : List Nat := List.replicate 105536 97 ++ 10 :: List.replicate 14463 97

/-- A file whose first line is 2 MiB of the letter a (no newline within the
scanner's buffer), followed by a valid address line. -/
def hugeLineFile : List Nat := List.replicate bufCap 97 ++ 10 :: [49, 46, 49, 46, 49, 46, 49, 10]

/-- The bytes of one line 123.45.67.89 with its newline. -/
def lineS4 : List Nat := [49, 50, 51, 46, 52, 53, 46, 54, 55, 46, 56, 57, 10]

/-- Scenario S4: five thousand repetitions of the line 123.45.67.89. -/
def fileS4 : List Nat := (List.replicate 5000 lineS4).flatten

/-! ### Bit-level helper lemmas -/

theorem and_mask_ne_zero_iff (a k : Nat) : (¬a &&& 1 <<< k = 0) ↔ a.testBit k = true := by
  rw [Nat.one_shiftLeft, Nat.and_two_pow]
  cases hb : a.testBit k
  · simp
  · simp

theorem or_mask_testBit (a k : Nat) : (a ||| 1 <<< k).testBit k = true := by
  rw [Nat.one_shiftLeft]
  simp [Nat.testBit_two_pow_self]

theorem or_mask_testBit_ne (a j k : Nat) (h : j ≠ k) : (a ||| 1 <<< k).testBit j = a.testBit j := by
  rw [Nat.one_shiftLeft]
  have hk : k ≠ j := fun hkj => h hkj.symm
  simp [Nat.testBit_two_pow, hk]

theorem or_mask_and_mask_ne (a k : Nat) : ¬(a ||| 1 <<< k) &&& 1 <<< k = 0 :=
  (and_mask_ne_zero_iff _ k).mpr (or_mask_testBit a k)

theorem or_mask_and_other (a j k : Nat) (h : j ≠ k) :
    (a ||| 1 <<< k) &&& 1 <<< j = a &&& 1 <<< j := by
  have h1 : (1 : Nat) <<< j = 2 ^ j := Nat.one_shiftLeft j
  rw [h1, Nat.and_two_pow, Nat.and_two_pow, ← h1, or_mask_testBit_ne a j k h]

theorem mask_ne_zero (k : Nat) : ¬(1 : Nat) <<< k = 0 := by
  rw [Nat.one_shiftLeft]
  exact (Nat.two_pow_pos k).ne'

theorem mask_and_mask (j k : Nat) (h : j ≠ k) : (1 : Nat) <<< k &&& 1 <<< j = 0 := by
  have h2 := or_mask_and_other 0 j k h
  simpa using h2

theorem addr_eq_of_parts (x y : Nat) (h16 : y >>> 16 = x >>> 16)
    (h6 : (y &&& 65535) >>> 6 = (x &&& 65535) >>> 6)
    (h63 : (y &&& 65535) &&& 63 = (x &&& 65535) &&& 63) : y = x := by
  have e65535 : ∀ z : Nat, z &&& 65535 = z % 65536 := fun z => by
    have h : (65535 : Nat) = 2 ^ 16 - 1 := by norm_num
    rw [h, Nat.and_pow_two_sub_one_eq_mod]
  have e63 : ∀ z : Nat, z &&& 63 = z % 64 := fun z => by
    have h : (63 : Nat) = 2 ^ 6 - 1 := by norm_num
    rw [h, Nat.and_pow_two_sub_one_eq_mod]
  have es16 : ∀ z : Nat, z >>> 16 = z / 65536 := fun z => by
    rw [Nat.shiftRight_eq_div_pow]
  have es6 : ∀ z : Nat, z >>> 6 = z / 64 := fun z => by
    rw [Nat.shiftRight_eq_div_pow]
  rw [es16, es16] at h16
  rw [e65535, e65535, es6, es6] at h6
  rw [e65535, e65535, e63, e63] at h63
  omega

/-! ### Behaviour of SetIfNew and AddUnique on the functional state -/

theorem SetIfNew_fst (b : Bitset) (x : Nat) : (b.SetIfNew x).1 = !b.testAddr x := by
  cases hsh : b.shards (x >>> 16) with
  | none => simp [Bitset.SetIfNew, Bitset.getOrCreate, Bitset.testAddr, hsh]
  | some sh =>
    by_cases hm : sh.bits ((x &&& 65535) >>> 6) &&& 1 <<< ((x &&& 65535) &&& 63) = 0 <;>
      simp [Bitset.SetIfNew, Bitset.getOrCreate, Bitset.testAddr, hsh, hm]

theorem SetIfNew_testAddr_self (b : Bitset) (x : Nat) :
    (b.SetIfNew x).2.testAddr x = true := by
  cases hsh : b.shards (x >>> 16) with
  | none =>
    simp [Bitset.SetIfNew, Bitset.getOrCreate, Bitset.testAddr, hsh,
      or_mask_and_mask_ne, mask_ne_zero]
  | some sh =>
    by_cases hm : sh.bits ((x &&& 65535) >>> 6) &&& 1 <<< ((x &&& 65535) &&& 63) = 0 <;>
      simp [Bitset.SetIfNew, Bitset.getOrCreate, Bitset.testAddr, hsh, hm,
        or_mask_and_mask_ne]

theorem SetIfNew_unique (b : Bitset) (x : Nat) : (b.SetIfNew x).2.unique = b.unique := by
  cases hsh : b.shards (x >>> 16) with
  | none =>
    simp [Bitset.SetIfNew, Bitset.getOrCreate, hsh]
  | some sh =>
    by_cases hm : sh.bits ((x &&& 65535) >>> 6) &&& 1 <<< ((x &&& 65535) &&& 63) = 0 <;>
      simp [Bitset.SetIfNew, Bitset.getOrCreate, hsh, hm]

theorem SetIfNew_frame (b : Bitset) (x y : Nat) (hxy : y ≠ x) :
    (b.SetIfNew x).2.testAddr y = b.testAddr y := by
  by_cases hhi : y >>> 16 = x >>> 16
  · by_cases h6 : (y &&& 65535) >>> 6 = (x &&& 65535) >>> 6
    · have h63 : (y &&& 65535) &&& 63 ≠ (x &&& 65535) &&& 63 := by
        intro h63
        exact hxy (addr_eq_of_parts x y hhi h6 h63)
      cases hsh : b.shards (x >>> 16) with
      | none =>
        have hshy : b.shards (y >>> 16) = none := by rw [hhi, hsh]
        simp [Bitset.SetIfNew, Bitset.getOrCreate, Bitset.testAddr, hsh, hshy, hhi, h6,
          or_mask_and_other _ _ _ h63, mask_and_mask _ _ h63]
      | some sh =>
        have hshy : b.shards (y >>> 16) = some sh := by rw [hhi, hsh]
        by_cases hm : sh.bits ((x &&& 65535) >>> 6) &&& 1 <<< ((x &&& 65535) &&& 63) = 0 <;>
          simp [Bitset.SetIfNew, Bitset.getOrCreate, Bitset.testAddr, hsh, hshy, hhi, h6,
            or_mask_and_other _ _ _ h63, hm]
    · cases hsh : b.shards (x >>> 16) with
      | none =>
        have hshy : b.shards (y >>> 16) = none := by rw [hhi, hsh]
        simp [Bitset.SetIfNew, Bitset.getOrCreate, Bitset.testAddr, hsh, hshy, hhi, h6]
      | some sh =>
        have hshy : b.shards (y >>> 16) = some sh := by rw [hhi, hsh]
        by_cases hm : sh.bits ((x &&& 65535) >>> 6) &&& 1 <<< ((x &&& 65535) &&& 63) = 0 <;>
          simp [Bitset.SetIfNew, Bitset.getOrCreate, Bitset.testAddr, hsh, hshy, hhi, h6, hm]
  · cases hsh : b.shards (x >>> 16) with
    | none =>
      simp [Bitset.SetIfNew, Bitset.getOrCreate, Bitset.testAddr, hsh, hhi]
    | some sh =>
      by_cases hm : sh.bits ((x &&& 65535) >>> 6) &&& 1 <<< ((x &&& 65535) &&& 63) = 0 <;>
        simp [Bitset.SetIfNew, Bitset.getOrCreate, Bitset.testAddr, hsh, hhi, hm]

theorem AddUnique_shards (b : Bitset) (n : Nat) : (b.AddUnique n).shards = b.shards := by
  by_cases hn : n = 0 <;> simp [Bitset.AddUnique, hn]

theorem AddUnique_testAddr (b : Bitset) (n x : Nat) :
    (b.AddUnique n).testAddr x = b.testAddr x := by
  simp [Bitset.testAddr, AddUnique_shards]

theorem testAddr_mono_set (b : Bitset) (x y : Nat) (h : b.testAddr x = true) :
    (b.SetIfNew y).2.testAddr x = true := by
  by_cases hxy : x = y
  · rw [hxy]
    exact SetIfNew_testAddr_self b y
  · rw [SetIfNew_frame b y x hxy]
    exact h

theorem testAddr_applySets_mono (x : Nat) :
    ∀ (ys : List Nat) (b : Bitset), b.testAddr x = true → (applySets b ys).testAddr x = true := by
  intro ys
  induction ys with
  | nil => intro b h; exact h
  | cons y ys ih =>
    intro b h
    simp only [applySets]
    exact ih _ (testAddr_mono_set b x y h)

theorem testAddr_mono_applyOp (b : Bitset) (op : BOp) (x : Nat) (h : b.testAddr x = true) :
    (applyOp b op).testAddr x = true := by
  cases op with
  | set y => exact testAddr_mono_set b x y h
  | add n =>
    simp only [applyOp, AddUnique_testAddr]
    exact h

theorem testAddr_applyOps_mono (x : Nat) :
    ∀ (ops : List BOp) (b : Bitset), b.testAddr x = true → (applyOps b ops).testAddr x = true := by
  intro ops
  induction ops with
  | nil => intro b h; exact h
  | cons op rest ih =>
    intro b h
    simp only [applyOps]
    exact ih _ (testAddr_mono_applyOp b op x h)

theorem AddUnique_unique (b : Bitset) (n : Nat) (h : b.unique + n < 2 ^ 64) :
    (b.AddUnique n).unique = b.unique + n := by
  by_cases hn : n = 0
  · simp [Bitset.AddUnique, hn]
  · unfold Bitset.AddUnique
    rw [if_pos hn]
    exact Nat.mod_eq_of_lt h

theorem applyOps_unique_exact :
    ∀ (ops : List BOp) (b : Bitset), b.unique + totalAdd ops < 2 ^ 64 →
      (applyOps b ops).unique = b.unique + totalAdd ops := by
  intro ops
  induction ops with
  | nil =>
    intro b h
    simp [applyOps, totalAdd]
  | cons op rest ih =>
    intro b h
    cases op with
    | set y =>
      simp only [applyOps, applyOp, totalAdd] at *
      rw [ih _ (by rw [SetIfNew_unique]; exact h), SetIfNew_unique]
    | add n =>
      simp only [totalAdd] at h
      have hu : (b.AddUnique n).unique = b.unique + n := AddUnique_unique b n (by omega)
      simp only [applyOps, applyOp, totalAdd]
      have hrec := ih (b.AddUnique n) (by rw [hu]; omega)
      rw [hrec, hu]
      omega

/-- Claim C2: SetIfNew(x) returns true exactly when the bit for x was 0
immediately before the call, the bit is 1 afterwards, and after the first
call every later SetIfNew(x), with any other calls in between, returns
false. -/
theorem c2_setIfNew_first_transition (b : Bitset) (x : Nat) :
    ((b.SetIfNew x).1 = true ↔ b.testAddr x = false) ∧
    (b.SetIfNew x).2.testAddr x = true ∧
    ∀ ys : List Nat, ((applySets (b.SetIfNew x).2 ys).SetIfNew x).1 = false := by
  refine ⟨?_, SetIfNew_testAddr_self b x, ?_⟩
  · rw [SetIfNew_fst]
    cases h : b.testAddr x <;> simp
  · intro ys
    have hset : (applySets (b.SetIfNew x).2 ys).testAddr x = true :=
      testAddr_applySets_mono x ys _ (SetIfNew_testAddr_self b x)
    rw [SetIfNew_fst, hset]
    rfl

/-- Claim C10: SetIfNew(x) changes at most the bit of x: the membership of
every other address y is untouched, and the unique counter is untouched. -/
theorem c10_setIfNew_frame (b : Bitset) (x y : Nat) (h : y ≠ x) :
    (b.SetIfNew x).2.testAddr y = b.testAddr y ∧ (b.SetIfNew x).2.unique = b.unique :=
  ⟨SetIfNew_frame b x y h, SetIfNew_unique b x⟩

/-- Witness for C10 at x = 5, y = 7 on the fresh bitset. -/
theorem c10_setIfNew_frame_witness :
    (7 : Nat) ≠ 5 ∧
    ((Bitset.New.SetIfNew 5).2.testAddr 7 = Bitset.New.testAddr 7 ∧
     (Bitset.New.SetIfNew 5).2.unique = Bitset.New.unique) :=
  ⟨by decide, c10_setIfNew_frame Bitset.New 5 7 (by decide)⟩

/-- Claim C8 counterexample: the unique counter is a wrapping 64-bit value,
so a sequence of AddUnique calls can make GetUniqueCount decrease: after
AddUnique (2^64 - 1) the counter is 2^64 - 1, and a further AddUnique 2
wraps it to 1. -/
theorem c8_counterexample :
    (Bitset.New.AddUnique (2 ^ 64 - 1)).GetUniqueCount = 2 ^ 64 - 1 ∧
    ((Bitset.New.AddUnique (2 ^ 64 - 1)).AddUnique 2).GetUniqueCount = 1 ∧
    ((Bitset.New.AddUnique (2 ^ 64 - 1)).AddUnique 2).GetUniqueCount
      < (Bitset.New.AddUnique (2 ^ 64 - 1)).GetUniqueCount := by
  refine ⟨by decide, by decide, by decide⟩

/-- Claim C8 (amended): every operation preserves set bits, and the unique
counter never decreases across a sequence of SetIfNew and AddUnique calls
provided the 64-bit counter does not wrap, that is, the starting value plus
everything added stays below 2^64. -/
theorem c8_monotone (b : Bitset) (ops : List BOp) (x : Nat) :
    (b.testAddr x = true → (applyOps b ops).testAddr x = true) ∧
    (b.unique + totalAdd ops < 2 ^ 64 → b.unique ≤ (applyOps b ops).unique) := by
  constructor
  · exact fun h => testAddr_applyOps_mono x ops b h
  · intro h
    rw [applyOps_unique_exact ops b h]
    omega

/-- Witness for C8 (amended): a bit set before an add-then-set sequence
stays set, and the counter does not decrease. -/
theorem c8_monotone_witness :
    (applyOps (Bitset.New.SetIfNew 7).2 [BOp.add 5, BOp.set 3]).testAddr 7 = true ∧
    (Bitset.New.SetIfNew 7).2.unique
      ≤ (applyOps (Bitset.New.SetIfNew 7).2 [BOp.add 5, BOp.set 3]).unique :=
  ⟨(c8_monotone (Bitset.New.SetIfNew 7).2 [BOp.add 5, BOp.set 3] 7).1 (by decide),
   (c8_monotone (Bitset.New.SetIfNew 7).2 [BOp.add 5, BOp.set 3] 7).2 (by decide)⟩

/-- Claim C4 (code bug): the parser does not reject every empty component.
The seven-byte input .11.2.3 carries a leading empty component yet parses
successfully as 0.11.2.3 (value 721411); 1..2.33 and 11.2.3. are accepted
the same way, the empty component contributing the value 0.  The
empty-component entries of the repository's own invalid-input test list,
such as .1.1.1, are rejected only because their length is below 7. -/
theorem c4_empty_component_accepted :
    IPv4ByteToUint32 [46, 49, 49, 46, 50, 46, 51] = some 721411 ∧
    IPv4ByteToUint32 [49, 46, 46, 50, 46, 51, 51] = some 16777761 ∧
    IPv4ByteToUint32 [49, 49, 46, 50, 46, 51, 46] = some 184681216 ∧
    IPv4ByteToUint32 [46, 49, 46, 49, 46, 49] = none := by
  refine ⟨by decide, by decide, by decide, by decide⟩

/-! ### Parser correctness over all component values (claim C3) -/

theorem decBytes_eq_single {a : Nat} (h : a < 10) : decBytes a = [48 + a] := by
  unfold decBytes
  simp [h]

theorem decBytes_length_succ {a : Nat} (h : ¬a < 10) :
    (decBytes a).length = (decBytes (a / 10)).length + 1 := by
  conv_lhs => rw [decBytes]
  simp [h]

theorem decBytes_length_bound {a : Nat} (h : a < 1000) :
    1 ≤ (decBytes a).length ∧ (decBytes a).length ≤ 3 := by
  by_cases h1 : a < 10
  · simp [decBytes_eq_single h1]
  · by_cases h2 : a < 100
    · have hq : a / 10 < 10 := by omega
      rw [decBytes_length_succ h1]
      simp [decBytes_eq_single hq]
    · have hq1 : ¬a / 10 < 10 := by omega
      have hqq : a / 10 / 10 < 10 := by omega
      rw [decBytes_length_succ h1, decBytes_length_succ hq1]
      simp [decBytes_eq_single hqq]

theorem parseLoop_decBytes (a : Nat) : ∀ (rest : List Nat) (acc part dots : Nat),
    part * 10 ^ (decBytes a).length + a ≤ 255 →
    parseLoop (decBytes a ++ rest) acc part dots
      = parseLoop rest acc (part * 10 ^ (decBytes a).length + a) dots := by
  induction a using Nat.strong_induction_on with
  | _ a ih =>
    intro rest acc part dots hbound
    by_cases ha : a < 10
    · rw [decBytes_eq_single ha] at hbound ⊢
      simp only [List.length_cons, List.length_nil, Nat.pow_one, pow_zero] at hbound ⊢
      have hd : (48 + a + 208) % 256 = a := by omega
      simp only [List.cons_append, List.nil_append, parseLoop, hd]
      rw [if_pos (by omega : a ≤ 9), if_neg (by omega : ¬255 < part * 10 + a)]
      norm_num
    · have hsplit : decBytes a = decBytes (a / 10) ++ [48 + a % 10] := by
        conv_lhs => rw [decBytes]
        simp [ha]
      rw [hsplit] at hbound ⊢
      rw [List.append_assoc, List.singleton_append]
      have hlen : (decBytes (a / 10) ++ [48 + a % 10]).length
          = (decBytes (a / 10)).length + 1 := by
        simp
      rw [hlen] at hbound ⊢
      have hpow : (10 : Nat) ^ ((decBytes (a / 10)).length + 1)
          = 10 ^ (decBytes (a / 10)).length * 10 := pow_succ 10 _
      rw [hpow, ← Nat.mul_assoc] at hbound ⊢
      have hb2 : part * 10 ^ (decBytes (a / 10)).length + a / 10 ≤ 25 := by omega
      rw [ih (a / 10) (Nat.div_lt_self (by omega) (by omega)) ((48 + a % 10) :: rest) acc part
        dots (by omega)]
      have hd : (48 + a % 10 + 208) % 256 = a % 10 := by omega
      simp only [parseLoop, hd]
      rw [if_pos (by omega : a % 10 ≤ 9),
        if_neg (by omega : ¬255 < (part * 10 ^ (decBytes (a / 10)).length + a / 10) * 10 + a % 10)]
      have harith : (part * 10 ^ (decBytes (a / 10)).length + a / 10) * 10 + a % 10
          = part * 10 ^ (decBytes (a / 10)).length * 10 + a := by omega
      rw [harith]

theorem parseLoop_dot (rest : List Nat) (acc part dots : Nat) (h : dots < 3) :
    parseLoop (46 :: rest) acc part dots = parseLoop rest ((acc <<< 8) ||| part) 0 (dots + 1) := by
  simp only [parseLoop]
  norm_num
  intro hdots
  omega

theorem shiftLeft_or_val (A p : Nat) (hp : p < 256) : (A <<< 8) ||| p = A * 256 + p := by
  have hlt : p < 2 ^ 8 := by
    have e8 : (2 : Nat) ^ 8 = 256 := by norm_num
    omega
  have h : (2 : Nat) ^ 8 * A + p = 2 ^ 8 * A ||| p := Nat.mul_add_lt_is_or hlt A
  rw [Nat.shiftLeft_eq, Nat.mul_comm A (2 ^ 8), ← h]

theorem quad_val (a b c d : Nat) (hb : b ≤ 255) (hc : c ≤ 255) (hd : d ≤ 255) :
    ((a * 256 + b) * 256 + c) * 256 + d = a <<< 24 ||| b <<< 16 ||| c <<< 8 ||| d := by
  rw [Nat.shiftLeft_eq, Nat.shiftLeft_eq, Nat.shiftLeft_eq]
  have h1 : a * 2 ^ 24 ||| b * 2 ^ 16 = a * 2 ^ 24 + b * 2 ^ 16 := by
    have h := Nat.mul_add_lt_is_or
      (show b * 2 ^ 16 < 2 ^ 24 by
        have e16 : (2 : Nat) ^ 16 = 65536 := by norm_num
        have e24 : (2 : Nat) ^ 24 = 16777216 := by norm_num
        rw [e16, e24]; omega) a
    rw [Nat.mul_comm a (2 ^ 24), ← h]
  have h2 : a * 2 ^ 24 + b * 2 ^ 16 ||| c * 2 ^ 8 = a * 2 ^ 24 + b * 2 ^ 16 + c * 2 ^ 8 := by
    have h := Nat.mul_add_lt_is_or
      (show c * 2 ^ 8 < 2 ^ 16 by
        have e8 : (2 : Nat) ^ 8 = 256 := by norm_num
        have e16 : (2 : Nat) ^ 16 = 65536 := by norm_num
        rw [e8, e16]; omega) (2 ^ 8 * a + b)
    have harr : (2 : Nat) ^ 16 * (2 ^ 8 * a + b) = a * 2 ^ 24 + b * 2 ^ 16 := by ring
    rw [harr] at h
    rw [← h]
  have h3 : a * 2 ^ 24 + b * 2 ^ 16 + c * 2 ^ 8 ||| d
      = a * 2 ^ 24 + b * 2 ^ 16 + c * 2 ^ 8 + d := by
    have h := Nat.mul_add_lt_is_or
      (show d < 2 ^ 8 by
        have e8 : (2 : Nat) ^ 8 = 256 := by norm_num
        rw [e8]; omega) (2 ^ 16 * a + 2 ^ 8 * b + c)
    have harr : (2 : Nat) ^ 8 * (2 ^ 16 * a + 2 ^ 8 * b + c)
        = a * 2 ^ 24 + b * 2 ^ 16 + c * 2 ^ 8 := by ring
    rw [harr] at h
    rw [← h]
  rw [h1, h2, h3]
  ring

/-- Claim C3: for all components a, b, c, d in 0..255 the decimal dotted
quad a.b.c.d parses to ok together with the packed value
(a shl 24) or (b shl 16) or (c shl 8) or d; leading zeros are accepted and
do not change the value: 001.002.003.004 parses to 0x01020304 = 16909060. -/
theorem c3_parse_correct :
    (∀ a b c d : Nat, a ≤ 255 → b ≤ 255 → c ≤ 255 → d ≤ 255 →
      IPv4ByteToUint32 (decBytes a ++ 46 :: (decBytes b ++ 46 :: (decBytes c ++ 46 :: decBytes d)))
        = some (a <<< 24 ||| b <<< 16 ||| c <<< 8 ||| d)) ∧
    IPv4ByteToUint32 [48, 48, 49, 46, 48, 48, 50, 46, 48, 48, 51, 46, 48, 48, 52]
      = some 16909060 := by
  constructor
  · intro a b c d ha hb hc hd
    obtain ⟨la1, la3⟩ := decBytes_length_bound (show a < 1000 by omega)
    obtain ⟨lb1, lb3⟩ := decBytes_length_bound (show b < 1000 by omega)
    obtain ⟨lc1, lc3⟩ := decBytes_length_bound (show c < 1000 by omega)
    obtain ⟨ld1, ld3⟩ := decBytes_length_bound (show d < 1000 by omega)
    unfold IPv4ByteToUint32
    rw [if_neg (by simp only [List.length_append, List.length_cons]; omega)]
    rw [parseLoop_decBytes a (46 :: (decBytes b ++ 46 :: (decBytes c ++ 46 :: decBytes d)))
      0 0 0 (by omega)]
    simp only [Nat.zero_mul, Nat.zero_add]
    rw [parseLoop_dot _ _ _ _ (by omega)]
    simp only [Nat.zero_shiftLeft, Nat.zero_or]
    rw [parseLoop_decBytes b (46 :: (decBytes c ++ 46 :: decBytes d)) a 0 1 (by omega)]
    simp only [Nat.zero_mul, Nat.zero_add]
    rw [parseLoop_dot _ _ _ _ (by omega)]
    rw [shiftLeft_or_val a b (by omega)]
    rw [parseLoop_decBytes c (46 :: decBytes d) (a * 256 + b) 0 2 (by omega)]
    simp only [Nat.zero_mul, Nat.zero_add]
    rw [parseLoop_dot _ _ _ _ (by omega)]
    rw [shiftLeft_or_val (a * 256 + b) c (by omega)]
    rw [← List.append_nil (decBytes d)]
    rw [parseLoop_decBytes d [] ((a * 256 + b) * 256 + c) 0 3 (by omega)]
    simp only [Nat.zero_mul, Nat.zero_add]
    simp only [parseLoop]
    norm_num
    rw [shiftLeft_or_val _ d (by omega)]
    rw [quad_val a b c d (by omega) (by omega) (by omega)]
  · decide

/-- Witness for C3 at 1.2.3.4. -/
theorem c3_parse_correct_witness :
    IPv4ByteToUint32 (decBytes 1 ++ 46 :: (decBytes 2 ++ 46 :: (decBytes 3 ++ 46 :: decBytes 4)))
      = some (1 <<< 24 ||| 2 <<< 16 ||| 3 <<< 8 ||| 4) :=
  c3_parse_correct.1 1 2 3 4 (by decide) (by decide) (by decide) (by decide)

/-! ### Characterisation of the newline search (claims C5, C6, C7, C9) -/

theorem idxOf10_lt_length : ∀ {l : List Nat} {i : Nat}, idxOf10 l = some i → i < l.length := by
  intro l
  induction l with
  | nil => intro i h; simp [idxOf10] at h
  | cons c rest ih =>
    intro i h
    by_cases hc : c = 10
    · simp [idxOf10, hc] at h
      simp
      omega
    · simp [idxOf10, hc] at h
      obtain ⟨j, hj, rfl⟩ := h
      have := ih hj
      simp
      omega

theorem idxOf10_eq_some_iff : ∀ (l : List Nat) (i : Nat),
    idxOf10 l = some i ↔ l[i]? = some 10 ∧ ∀ j, j < i → l[j]? ≠ some 10 := by
  intro l
  induction l with
  | nil =>
    intro i
    simp [idxOf10]
  | cons c rest ih =>
    intro i
    by_cases hc : c = 10
    · subst hc
      simp only [idxOf10, if_pos rfl]
      constructor
      · intro h
        obtain rfl : i = 0 := by simpa using h.symm
        refine ⟨by simp, fun j hj => by omega⟩
      · rintro ⟨hget, hall⟩
        rcases i with _ | i
        · rfl
        · exact absurd (by simp : (10 :: rest)[0]? = some 10) (hall 0 (by omega))
    · simp only [idxOf10, if_neg hc]
      constructor
      · intro h
        simp only [Option.map_eq_some'] at h
        obtain ⟨i', hi', rfl⟩ := h
        obtain ⟨hget, hall⟩ := (ih i').mp hi'
        refine ⟨by simpa using hget, ?_⟩
        intro j hj
        rcases j with _ | j
        · simp
          omega
        · simp only [List.getElem?_cons_succ]
          exact hall j (by omega)
      · rintro ⟨hget, hall⟩
        rcases i with _ | i
        · simp at hget
          omega
        · simp only [List.getElem?_cons_succ] at hget
          have hrest : idxOf10 rest = some i := by
            refine (ih i).mpr ⟨hget, fun j hj => ?_⟩
            have := hall (j + 1) (by omega)
            simpa using this
          simp [hrest]

theorem idxOf10_eq_none_iff : ∀ (l : List Nat),
    idxOf10 l = none ↔ ∀ j : Nat, l[j]? ≠ some 10 := by
  intro l
  induction l with
  | nil => simp [idxOf10]
  | cons c rest ih =>
    by_cases hc : c = 10
    · subst hc
      simp only [idxOf10, if_pos rfl]
      constructor
      · intro h
        exact absurd h (by simp)
      · intro h
        exact absurd (by simp : (10 :: rest)[0]? = some 10) (h 0)
    · simp only [idxOf10, if_neg hc]
      constructor
      · intro h j
        rcases j with _ | j
        · simp
          omega
        · simp only [List.getElem?_cons_succ]
          exact (ih.mp (by simpa using h)) j
      · intro h
        have : idxOf10 rest = none := ih.mpr fun j => by
          have := h (j + 1)
          simpa using this
        simp [this]

theorem getElem?_drop' (l : List Nat) : ∀ (n i : Nat), (l.drop n)[i]? = l[n + i]? := by
  induction l with
  | nil => intro n i; simp
  | cons a l ih =>
    intro n i
    rcases n with _ | n
    · simp
    · rw [List.drop_succ_cons, ih n i]
      have : n + 1 + i = (n + i) + 1 := by omega
      rw [this, List.getElem?_cons_succ]

theorem firstNL_eq_some_iff (file : List Nat) (off p : Nat) :
    firstNL file off = some p ↔
      off ≤ p ∧ file[p]? = some 10 ∧ ∀ r, off ≤ r → r < p → file[r]? ≠ some 10 := by
  unfold firstNL
  simp only [Option.map_eq_some']
  constructor
  · rintro ⟨i, hi, rfl⟩
    obtain ⟨hget, hall⟩ := (idxOf10_eq_some_iff _ i).mp hi
    rw [getElem?_drop'] at hget
    refine ⟨by omega, hget, ?_⟩
    intro r hr1 hr2
    have := hall (r - off) (by omega)
    rw [getElem?_drop'] at this
    have harr : off + (r - off) = r := by omega
    rwa [harr] at this
  · rintro ⟨hle, hget, hall⟩
    refine ⟨p - off, ?_, by omega⟩
    refine (idxOf10_eq_some_iff _ _).mpr ⟨?_, ?_⟩
    · rw [getElem?_drop']
      have harr : off + (p - off) = p := by omega
      rwa [harr]
    · intro j hj
      rw [getElem?_drop']
      exact hall (off + j) (by omega) (by omega)

theorem firstNL_eq_none_iff (file : List Nat) (off : Nat) :
    firstNL file off = none ↔ ∀ r, off ≤ r → file[r]? ≠ some 10 := by
  unfold firstNL
  simp only [Option.map_eq_none']
  rw [idxOf10_eq_none_iff]
  constructor
  · intro h r hr
    have := h (r - off)
    rw [getElem?_drop'] at this
    have harr : off + (r - off) = r := by omega
    rwa [harr] at this
  · intro h j
    rw [getElem?_drop']
    exact h (off + j) (by omega)

theorem newline_lt_length {file : List Nat} {p : Nat} (h : file[p]? = some 10) :
    p < file.length := by
  by_contra hge
  rw [List.getElem?_eq_none (by omega)] at h
  exact Option.noConfusion h

theorem moveLoop_stop_le (file : List Nat) (e off k : Nat) (h : e ≤ off) :
    moveLoop file e (k + 1) off = some ⟨e, e⟩ := by
  rw [moveLoop, if_pos h]

theorem moveLoop_spec (file : List Nat) (e : Nat) (he : e ≤ file.length) :
    ∀ (f off : Nat), e - off < f →
      ∃ t : Shard, moveLoop file e f off = some t ∧ t.stop = e ∧
        ((t.start = e ∧ ∀ p, firstNL file off = some p →
            e ≤ off + (p - off) / 65536 * 65536) ∨
         (∃ p, firstNL file off = some p ∧ t.start = p + 1 ∧ off ≤ p ∧
            off + (p - off) / 65536 * 65536 < e)) := by
  have hcs : chunkSize = 65536 := rfl
  intro f
  induction f with
  | zero =>
    intro off hk
    omega
  | succ k ih =>
    intro off hk
    by_cases hoff : e ≤ off
    · exact ⟨⟨e, e⟩, moveLoop_stop_le file e off k hoff, rfl,
        Or.inl ⟨rfl, fun p _ => by omega⟩⟩
    · have hlt : off < e := by omega
      have hnpos : ¬min chunkSize (file.length - off) = 0 := by omega
      rw [moveLoop, if_neg hoff, if_neg hnpos]
      cases hidx : idxOf10 ((file.drop off).take (min chunkSize (file.length - off))) with
      | some idx =>
        have hidxlt : idx < ((file.drop off).take (min chunkSize (file.length - off))).length :=
          idxOf10_lt_length hidx
        rw [List.length_take, List.length_drop] at hidxlt
        obtain ⟨hget, hall⟩ := (idxOf10_eq_some_iff _ _).mp hidx
        rw [List.getElem?_take_of_lt (by omega), getElem?_drop'] at hget
        have hfst : firstNL file off = some (off + idx) := by
          refine (firstNL_eq_some_iff _ _ _).mpr ⟨by omega, hget, ?_⟩
          intro r hr1 hr2
          have hj := hall (r - off) (by omega)
          rw [List.getElem?_take_of_lt (by omega), getElem?_drop'] at hj
          have harr : off + (r - off) = r := by omega
          rwa [harr] at hj
        exact ⟨⟨off + idx + 1, e⟩, rfl, rfl,
          Or.inr ⟨off + idx, hfst, rfl, by omega, by omega⟩⟩
      | none =>
        have hnone := (idxOf10_eq_none_iff _).mp hidx
        by_cases hfull : chunkSize ≤ file.length - off
        · have hmin : min chunkSize (file.length - off) = chunkSize := min_eq_left hfull
          rw [hmin]
          obtain ⟨t, ht, hstop, hbr⟩ := ih (off + chunkSize) (by omega)
          refine ⟨t, ht, hstop, ?_⟩
          have hnochunk : ∀ r, off ≤ r → r < off + chunkSize → file[r]? ≠ some 10 := by
            intro r h1 h2
            have hj := hnone (r - off)
            rw [List.getElem?_take_of_lt (by omega), getElem?_drop'] at hj
            have harr : off + (r - off) = r := by omega
            rwa [harr] at hj
          have htrans : ∀ p, firstNL file off = some p ↔ firstNL file (off + chunkSize) = some p := by
            intro p
            constructor
            · intro hp
              obtain ⟨h1, h2, h3⟩ := (firstNL_eq_some_iff _ _ _).mp hp
              have hge : off + chunkSize ≤ p := by
                by_contra hlt2
                exact (hnochunk p h1 (by omega)) h2
              exact (firstNL_eq_some_iff _ _ _).mpr
                ⟨hge, h2, fun r hr1 hr2 => h3 r (by omega) hr2⟩
            · intro hp
              obtain ⟨h1, h2, h3⟩ := (firstNL_eq_some_iff _ _ _).mp hp
              refine (firstNL_eq_some_iff _ _ _).mpr ⟨by omega, h2, ?_⟩
              intro r hr1 hr2
              by_cases hrc : r < off + chunkSize
              · exact hnochunk r hr1 hrc
              · exact h3 r (by omega) hr2
          rcases hbr with ⟨hts, hgrid⟩ | ⟨p, hp, hts, hple, hgrid⟩
          · left
            refine ⟨hts, ?_⟩
            intro p hp
            have hp' := (htrans p).mp hp
            have hg := hgrid p hp'
            obtain ⟨h1, _, _⟩ := (firstNL_eq_some_iff _ _ _).mp hp'
            omega
          · right
            have hp0 := (htrans p).mpr hp
            obtain ⟨h1, _, _⟩ := (firstNL_eq_some_iff _ _ _).mp hp
            exact ⟨p, hp0, hts, by omega, by omega⟩
        · have hmin : min chunkSize (file.length - off) = file.length - off :=
            min_eq_right (by omega)
          have hwhole : (file.drop off).take (min chunkSize (file.length - off))
              = file.drop off := by
            rw [hmin]
            exact List.take_of_length_le (by simp)
          have hfnone : firstNL file off = none := by
            unfold firstNL
            rw [← hwhole, hidx]
            rfl
          rw [hmin]
          obtain ⟨k1, rfl⟩ : ∃ k1, k = k1 + 1 := ⟨k - 1, by omega⟩
          have hbase : moveLoop file e (k1 + 1) (off + (file.length - off)) = some ⟨e, e⟩ :=
            moveLoop_stop_le file e _ k1 (by omega)
          refine ⟨⟨e, e⟩, hbase, rfl, Or.inl ⟨rfl, ?_⟩⟩
          intro p hp
          rw [hfnone] at hp
          exact Option.noConfusion hp

theorem moveLoop_cases (file : List Nat) (b1 b2 f : Nat) (al : Shard)
    (h12 : b1 < b2) (h2 : b2 ≤ file.length) (hf : b2 - b1 < f)
    (hal : moveLoop file b2 f b1 = some al) :
    al.stop = b2 ∧ al.start ≤ file.length ∧ b1 < al.start ∧
    ((al.start = b2 ∧
        ∀ r, b1 ≤ r → r < max b2 (min (b1 + 65536) file.length) → file[r]? ≠ some 10) ∨
     (1 ≤ al.start ∧ file[al.start - 1]? = some 10)) := by
  obtain ⟨t, ht, hstop, hbr⟩ := moveLoop_spec file b2 h2 f b1 hf
  rw [hal] at ht
  obtain rfl : al = t := Option.some.inj ht
  rcases hbr with ⟨hts, hgrid⟩ | ⟨p, hp, hts, hple, hgrid⟩
  · refine ⟨hstop, by omega, by omega, Or.inl ⟨hts, ?_⟩⟩
    intro r h1 h2' hNL
    cases hfn : firstNL file b1 with
    | none => exact (firstNL_eq_none_iff file b1).mp hfn r h1 hNL
    | some p =>
      obtain ⟨hle, hnl, hfirst⟩ := (firstNL_eq_some_iff file b1 p).mp hfn
      have hpr : p ≤ r := by
        by_contra hgt
        exact hfirst r h1 (by omega) hNL
      have hg := hgrid p hfn
      have hdm : (p - b1) / 65536 * 65536 ≤ p - b1 := Nat.div_mul_le_self _ _
      omega
  · obtain ⟨hble, hnl, _⟩ := (firstNL_eq_some_iff file b1 p).mp hp
    have hplen : p < file.length := newline_lt_length hnl
    refine ⟨hstop, by omega, by omega, Or.inr ⟨by omega, ?_⟩⟩
    rw [hts]
    have harr : p + 1 - 1 = p := by omega
    rw [harr]
    exact hnl

theorem align_mono (file : List Nat) (b0 b1 b2 f1 f2 : Nat) (cur al : Shard)
    (h01 : b0 < b1) (h12 : b1 < b2) (h2 : b2 ≤ file.length)
    (hf1 : b1 - b0 < f1) (hf2 : b2 - b1 < f2)
    (hcur : moveLoop file b1 f1 b0 = some cur)
    (hal : moveLoop file b2 f2 b1 = some al) :
    cur.start ≤ al.start := by
  obtain ⟨t1, ht1, hs1, hbr1⟩ := moveLoop_spec file b1 (by omega) f1 b0 hf1
  rw [hcur] at ht1
  obtain rfl : cur = t1 := Option.some.inj ht1
  obtain ⟨t2, ht2, hs2, hbr2⟩ := moveLoop_spec file b2 h2 f2 b1 hf2
  rw [hal] at ht2
  obtain rfl : al = t2 := Option.some.inj ht2
  rcases hbr1 with ⟨hc1, _⟩ | ⟨p1, hp1, hc1, hp1b, hg1⟩
  · rcases hbr2 with ⟨hc2, _⟩ | ⟨p2, hp2, hc2, hp2b, _⟩
    · omega
    · omega
  · by_cases hpb : p1 < b1
    · rcases hbr2 with ⟨hc2, _⟩ | ⟨p2, hp2, hc2, hp2b, _⟩
      · omega
      · omega
    · have hp1nl : firstNL file b1 = some p1 := by
        obtain ⟨hle, hnl, hnone⟩ := (firstNL_eq_some_iff file b0 p1).mp hp1
        exact (firstNL_eq_some_iff file b1 p1).mpr
          ⟨by omega, hnl, fun r hr1 hr2 => hnone r (by omega) hr2⟩
      have hplt : p1 < b1 + 65536 := by omega
      rcases hbr2 with ⟨hc2, hgrid2⟩ | ⟨p2, hp2, hc2, _, _⟩
      · exfalso
        have := hgrid2 p1 hp1nl
        omega
      · have hpe : p1 = p2 := by
          rw [hp1nl] at hp2
          exact Option.some.inj hp2
        omega

theorem chained_snoc_replace : ∀ (L : List Shard) (c c' t : Shard),
    Chained (L ++ [c]) → c'.start = c.start → c'.stop = t.start →
    Chained (L ++ [c', t]) := by
  intro L
  induction L with
  | nil =>
    intro c c' t _ _ hct
    exact ⟨hct, trivial⟩
  | cons a L ih =>
    intro c c' t hch hcs hct
    cases L with
    | nil =>
      obtain ⟨hab, _⟩ := hch
      exact ⟨by rw [hcs]; exact hab, hct, trivial⟩
    | cons b L' =>
      obtain ⟨hab, hrest⟩ := hch
      exact ⟨hab, ih c c' t hrest hcs hct⟩


theorem splitLoop_master (file : List Nat) (part : Nat) (hpart : 1 ≤ part) :
    ∀ (m start : Nat) (cur : Shard) (done : List Shard),
      (1 ≤ m → start + m * part ≤ file.length) →
      (m = 0 → start = file.length) →
      1 ≤ start →
      cur.stop = start →
      ((done = [] ∧ cur.start = 0) ∨
        (∃ b0 f, 1 ≤ b0 ∧ b0 < start ∧ start - b0 < f ∧
          moveLoop file start f b0 = some cur)) →
      (done ≠ [] →
        (1 ≤ cur.start ∧ file[cur.start - 1]? = some 10) ∨ gapStart file cur) →
      Chained ((cur :: done).reverse) →
      (∀ s ∈ done, WFShard file.length s) →
      (∀ s ∈ done.dropLast, alignedStart file s ∨ gapStart file s) →
      (∃ z, (cur :: done).getLast? = some z ∧ z.start = 0) →
      ∃ shs : List Shard,
        splitLoop file file.length part m start (cur :: done) = some shs ∧
        (∃ hd tl, shs = hd :: tl ∧ hd.start = 0) ∧
        (∀ gl, shs.getLast? = some gl → gl.stop = file.length) ∧
        Chained shs ∧
        (∀ s ∈ shs, WFShard file.length s) ∧
        (∀ s ∈ shs.tail, alignedStart file s ∨ gapStart file s) := by
  intro m
  induction m with
  | zero =>
    intro start cur done _ hsz hstart1 hcstop hped hstrong hch hwf htail hfirst
    have hsize : start = file.length := hsz rfl
    refine ⟨(cur :: done).reverse, rfl, ?_, ?_, hch, ?_, ?_⟩
    · obtain ⟨z, hz, hz0⟩ := hfirst
      have hhead : ((cur :: done).reverse).head? = some z := by
        rw [List.head?_reverse]
        exact hz
      cases hrev : (cur :: done).reverse with
      | nil => rw [hrev] at hhead; exact Option.noConfusion hhead
      | cons hd tl =>
        rw [hrev] at hhead
        obtain rfl : hd = z := by simpa using hhead
        exact ⟨hd, tl, rfl, hz0⟩
    · intro gl hgl
      rw [List.getLast?_reverse] at hgl
      obtain rfl : cur = gl := by simpa using hgl
      rw [hcstop, hsize]
    · intro s hs
      simp only [List.mem_reverse, List.mem_cons] at hs
      rcases hs with rfl | hs
      · rcases hped with ⟨_, hc0⟩ | ⟨b0, f, hb01, hb0lt, hbf, hmv⟩
        · constructor
          · rw [hc0]
            omega
          · rw [hcstop, hsize]
        · obtain ⟨hstop', hle, _, _⟩ :=
            moveLoop_cases file b0 start f s hb0lt (by omega) hbf hmv
          constructor
          · rw [hcstop, hsize]
            exact hle
          · rw [hcstop, hsize]
      · exact hwf s hs
    · intro s hs
      rw [List.tail_reverse, List.mem_reverse] at hs
      cases done with
      | nil =>
        simp at hs
      | cons d ds =>
        rw [List.dropLast_cons_of_ne_nil (by simp), List.mem_cons] at hs
        rcases hs with rfl | hs
        · rcases hped with ⟨habs, _⟩ | ⟨b0, f, hb01, hb0lt, hbf, hmv⟩
          · exact absurd habs (by simp)
          · obtain ⟨hstop', hle, hgt, hbr⟩ :=
              moveLoop_cases file b0 start f s hb0lt (by omega) hbf hmv
            rcases hbr with ⟨heq, _⟩ | ⟨h1, hnl⟩
            · left
              left
              rw [heq, hcstop]
            · left
              right
              exact ⟨h1, hnl⟩
        · exact htail s hs
  | succ m ih =>
    intro start cur done harith hsz hstart1 hcstop hped hstrong hch hwf htail hfirst
    have hbound : start + (m + 1) * part ≤ file.length := harith (by omega)
    have hstartlt : start < file.length := by
      have hm1 : 1 * part ≤ (m + 1) * part := Nat.mul_le_mul_right part (by omega)
      omega
    have hestep : (if m = 0 ∨ file.length < start + part then file.length
        else start + part) = if m = 0 then file.length else start + part := by
      by_cases hm : m = 0
      · simp [hm]
      · have hm2 : 2 * part ≤ (m + 1) * part := Nat.mul_le_mul_right part (by omega)
        have h1 : ¬file.length < start + part := by omega
        simp [hm, h1]
    rw [splitLoop, hestep]
    have helt : start < (if m = 0 then file.length else start + part) := by
      by_cases hm : m = 0
      · simp only [if_pos hm]
        omega
      · simp only [if_neg hm]
        omega
    have hele : (if m = 0 then file.length else start + part) ≤ file.length := by
      by_cases hm : m = 0
      · simp only [if_pos hm]
        omega
      · have hm1 : 1 * part ≤ (m + 1) * part := Nat.mul_le_mul_right part (by omega)
        simp only [if_neg hm]
        omega
    have h1e : 1 ≤ (if m = 0 then file.length else start + part) := by omega
    have hmv : moveStartToNewline file ⟨start, if m = 0 then file.length else start + part⟩
        = moveLoop file (if m = 0 then file.length else start + part)
          ((if m = 0 then file.length else start + part) - start + 1) start := by
      simp only [moveStartToNewline]
      rw [if_neg (show ¬start = 0 by omega)]
    obtain ⟨t, ht, hstop, hbr⟩ :=
      moveLoop_spec file (if m = 0 then file.length else start + part) hele
        ((if m = 0 then file.length else start + part) - start + 1) start (by omega)
    rw [hmv, ht]
    obtain ⟨hstop', hle', hgt', hbr'⟩ :=
      moveLoop_cases file start (if m = 0 then file.length else start + part)
        ((if m = 0 then file.length else start + part) - start + 1) t helt hele (by omega) ht
    have hord : cur.start ≤ t.start := by
      rcases hped with ⟨_, hc0⟩ | ⟨b0, f, hb01, hb0lt, hbf, hmv0⟩
      · omega
      · exact align_mono file b0 start _ f
          ((if m = 0 then file.length else start + part) - start + 1) cur t hb0lt helt hele
          hbf (by omega) hmv0 ht
    have hpatchwf : WFShard file.length ⟨cur.start, t.start⟩ := ⟨hord, hle'⟩
    have harith' : 1 ≤ m → (if m = 0 then file.length else start + part) + m * part
        ≤ file.length := by
      intro hm1
      have hm : ¬m = 0 := by omega
      simp only [if_neg hm]
      have : start + part + m * part = start + (m + 1) * part := by ring
      omega
    have hsz' : m = 0 → (if m = 0 then file.length else start + part) = file.length := by
      intro hm0
      simp [hm0]
    have hrec := ih (if m = 0 then file.length else start + part) t
      (⟨cur.start, t.start⟩ :: done)
      harith'
      hsz'
      h1e
      hstop'
      (Or.inr ⟨start, (if m = 0 then file.length else start + part) - start + 1,
        hstart1, helt, by omega, ht⟩)
      (by
        intro _
        rcases hbr' with ⟨heq, hnon⟩ | ⟨h1, hnl⟩
        · right
          exact ⟨start, hstart1, by omega, fun r hr1 hr2 => hnon r hr1 (by omega)⟩
        · left
          exact ⟨h1, hnl⟩)
      (by
        rw [List.reverse_cons, List.reverse_cons, List.append_assoc]
        rw [List.reverse_cons] at hch
        exact chained_snoc_replace done.reverse cur ⟨cur.start, t.start⟩ t hch rfl rfl)
      (by
        intro s hs
        rw [List.mem_cons] at hs
        rcases hs with rfl | hs
        · exact hpatchwf
        · exact hwf s hs)
      (by
        intro s hs
        cases done with
        | nil =>
          simp at hs
        | cons d ds =>
          rw [List.dropLast_cons_of_ne_nil (by simp), List.mem_cons] at hs
          rcases hs with rfl | hs
          · have hst := hstrong (by simp)
            rcases hst with ⟨h1, hnl⟩ | hgap
            · exact Or.inl (Or.inr ⟨h1, hnl⟩)
            · exact Or.inr hgap
          · exact htail s hs)
      (by
        obtain ⟨z, hz, hz0⟩ := hfirst
        cases done with
        | nil =>
          obtain rfl : z = cur := by simpa using hz.symm
          refine ⟨⟨z.start, t.start⟩, ?_, hz0⟩
          rw [List.getLast?_cons_cons]
          simp
        | cons d ds =>
          refine ⟨z, ?_, hz0⟩
          rw [List.getLast?_cons_cons, List.getLast?_cons_cons]
          rw [List.getLast?_cons_cons] at hz
          exact hz)
    exact hrec

theorem splitLoop_start (file : List Nat) (part n2 : Nat) (hpart : 1 ≤ part)
    (hn2 : 1 ≤ n2) (hbound : n2 * part ≤ file.length) (hsz : 0 < file.length) :
    ∃ shs : List Shard, splitLoop file file.length part n2 0 [] = some shs ∧
      (∃ hd tl, shs = hd :: tl ∧ hd.start = 0) ∧
      (∀ gl, shs.getLast? = some gl → gl.stop = file.length) ∧
      Chained shs ∧
      (∀ s ∈ shs, WFShard file.length s) ∧
      (∀ s ∈ shs.tail, alignedStart file s ∨ gapStart file s) := by
  obtain ⟨m, rfl⟩ : ∃ m, n2 = m + 1 := ⟨n2 - 1, by omega⟩
  have hestep : (if m = 0 ∨ file.length < 0 + part then file.length else 0 + part)
      = if m = 0 then file.length else part := by
    by_cases hm : m = 0
    · simp [hm]
    · have hm2 : 2 * part ≤ (m + 1) * part := Nat.mul_le_mul_right part (by omega)
      have hnl : ¬file.length < part := by omega
      simp [hm, hnl]
  simp only [splitLoop]
  rw [hestep]
  have h1e : 1 ≤ (if m = 0 then file.length else part) := by
    by_cases hm : m = 0
    · simp only [if_pos hm]
      omega
    · simp only [if_neg hm]
      omega
  exact splitLoop_master file part hpart m (if m = 0 then file.length else part) _ []
    (by
      intro hm1
      have hm : ¬m = 0 := by omega
      simp only [if_neg hm]
      have : part + m * part = (m + 1) * part := by ring
      omega)
    (by intro hm0; simp [hm0])
    h1e
    rfl
    (Or.inl ⟨rfl, rfl⟩)
    (fun h => absurd rfl h)
    (by simp [Chained])
    (fun s hs => absurd hs (by simp))
    (fun s hs => absurd hs (by simp))
    ⟨⟨0, if m = 0 then file.length else part⟩, by simp, rfl⟩

theorem splitToShards_spec (file : List Nat) (n : Nat) (hn : 1 ≤ n) (hsz : 0 < file.length) :
    ∃ shs : List Shard, splitToShards file file.length n = some shs ∧
      (∃ hd tl, shs = hd :: tl ∧ hd.start = 0) ∧
      (∀ gl, shs.getLast? = some gl → gl.stop = file.length) ∧
      Chained shs ∧
      (∀ s ∈ shs, WFShard file.length s) ∧
      (∀ s ∈ shs.tail, alignedStart file s ∨ gapStart file s) := by
  simp only [splitToShards]
  rw [if_neg (show ¬file.length = 0 by omega)]
  have hn1 : 1 ≤ (if file.length < n then 1 else n) := by
    by_cases h : file.length < n
    · simp [h]
    · simp [h]; omega
  by_cases hp0 : file.length / (if file.length < n then 1 else n) = 0
  · rw [if_pos hp0, if_pos hp0]
    exact splitLoop_start file file.length 1 (by omega) (by omega) (by omega) hsz
  · rw [if_neg hp0, if_neg hp0]
    refine splitLoop_start file _ _ (Nat.pos_of_ne_zero hp0) hn1 ?_ hsz
    calc (if file.length < n then 1 else n) * (file.length / (if file.length < n then 1 else n))
        = file.length / (if file.length < n then 1 else n)
          * (if file.length < n then 1 else n) := Nat.mul_comm _ _
      _ ≤ file.length := Nat.div_mul_le_self _ _

/-- Claim C6 counterexample: on the nine-byte file abcdefg, newline, x with
three workers, the middle boundary shard is [3,6) and [3,6) holds no
newline, yet moveStartToNewline returns [8,6) — the aligned start 8 exceeds
the naive end 6 (the 64 KiB read is not clipped to the shard), the shard
does not become [6,6), and in the final plan the preceding shard's end
becomes 8, not 6. -/
theorem c6_counterexample :
    moveStartToNewline file9 ⟨3, 6⟩ = some ⟨8, 6⟩ ∧
    ¬(8 : Nat) ≤ 6 ∧
    splitToShards file9 9 3 = some [⟨0, 8⟩, ⟨8, 8⟩, ⟨8, 9⟩] := by
  refine ⟨by decide, by decide, by decide⟩

/-- Claim C6 (amended): aligning a boundary shard [st, e) with 1 ≤ st and
e within the file keeps End = e and either finds the first newline p at or
after st — the aligned start is p + 1, which may exceed e by up to the
64 KiB chunk — or no newline was found in the scanned chunks, in particular
none in [st, e), and the shard collapses to [e, e); the preceding shard's
end is later patched to this aligned start, wherever it lies. -/
theorem c6_alignment (file : List Nat) (st e : Nat) (h1 : 1 ≤ st) (he : e ≤ file.length) :
    ∃ t : Shard, moveStartToNewline file ⟨st, e⟩ = some t ∧ t.stop = e ∧
      ((t.start = e ∧ ∀ r, st ≤ r → r < e → file[r]? ≠ some 10) ∨
       (∃ p, firstNL file st = some p ∧ t.start = p + 1 ∧ st ≤ p ∧ p < e + 65536)) := by
  have hmv : moveStartToNewline file ⟨st, e⟩ = moveLoop file e (e - st + 1) st := by
    simp only [moveStartToNewline]
    rw [if_neg (show ¬st = 0 by omega)]
  obtain ⟨t, ht, hstop, hbr⟩ := moveLoop_spec file e he (e - st + 1) st (by omega)
  refine ⟨t, by rw [hmv, ht], hstop, ?_⟩
  rcases hbr with ⟨hts, hgrid⟩ | ⟨p, hp, hts, hple, hgrid⟩
  · left
    refine ⟨hts, ?_⟩
    intro r hr1 hr2 hNL
    cases hfn : firstNL file st with
    | none => exact (firstNL_eq_none_iff file st).mp hfn r hr1 hNL
    | some p =>
      obtain ⟨hle, hnl, hfirst⟩ := (firstNL_eq_some_iff file st p).mp hfn
      have hpr : p ≤ r := by
        by_contra hgt
        exact hfirst r hr1 (by omega) hNL
      have hg := hgrid p hfn
      have hdm : (p - st) / 65536 * 65536 ≤ p - st := Nat.div_mul_le_self _ _
      omega
  · right
    exact ⟨p, hp, hts, hple, by omega⟩

/-- Witness for the amended C6 on a four-byte file. -/
theorem c6_alignment_witness :
    ∃ t : Shard, moveStartToNewline [97, 10, 98, 10] ⟨1, 4⟩ = some t ∧ t.stop = 4 ∧
      ((t.start = 4 ∧ ∀ r, 1 ≤ r → r < 4 → [97, 10, 98, 10][r]? ≠ some 10) ∨
       (∃ p, firstNL [97, 10, 98, 10] 1 = some p ∧ t.start = p + 1 ∧ 1 ≤ p ∧ p < 4 + 65536)) :=
  c6_alignment [97, 10, 98, 10] 1 4 (by decide) (by decide)

/-! ### List helpers for the large counterexamples -/

theorem drop_replicate' (a : Nat) : ∀ (n m : Nat),
    (List.replicate m a).drop n = List.replicate (m - n) a := by
  intro n
  induction n with
  | zero => intro m; simp
  | succ n ih =>
    intro m
    cases m with
    | zero => simp
    | succ m =>
      rw [List.replicate_succ, List.drop_succ_cons, ih m]
      congr 1
      omega

theorem drop_append_le (l1 l2 : List Nat) : ∀ n, n ≤ l1.length →
    (l1 ++ l2).drop n = l1.drop n ++ l2 := by
  induction l1 with
  | nil =>
    intro n hn
    simp at hn
    subst hn
    simp
  | cons a l1 ih =>
    intro n hn
    cases n with
    | zero => simp
    | succ n =>
      rw [List.cons_append, List.drop_succ_cons, List.drop_succ_cons]
      exact ih n (by simpa using hn)

theorem idxOf10_replicate (k a : Nat) (ha : a ≠ 10) :
    idxOf10 (List.replicate k a) = none := by
  induction k with
  | zero => rfl
  | succ k ih =>
    rw [List.replicate_succ]
    simp [idxOf10, ha, ih]

theorem idxOf10_no10_append (l2 : List Nat) : ∀ l1 : List Nat, (∀ x ∈ l1, x ≠ 10) →
    idxOf10 (l1 ++ 10 :: l2) = some l1.length := by
  intro l1
  induction l1 with
  | nil => simp [idxOf10]
  | cons a l1 ih =>
    intro h
    have ha : a ≠ 10 := h a (by simp)
    rw [List.cons_append]
    simp [idxOf10, ha]
    exact ih fun x hx => h x (by simp [hx])

theorem take_append_cons (x : Nat) (l2 : List Nat) : ∀ l1 : List Nat,
    (l1 ++ x :: l2).take (l1.length + 1) = l1 ++ [x] := by
  intro l1
  induction l1 with
  | nil => simp
  | cons a l1 ih =>
    rw [List.cons_append, List.length_cons]
    rw [List.take_succ_cons]
    rw [ih]
    rfl

theorem drop_append_cons (x : Nat) (l2 : List Nat) : ∀ l1 : List Nat,
    (l1 ++ x :: l2).drop (l1.length + 1) = l2 := by
  intro l1
  induction l1 with
  | nil => simp
  | cons a l1 ih =>
    rw [List.cons_append, List.length_cons]
    rw [List.drop_succ_cons]
    exact ih

/-! ### The planner on a file whose newline gap exceeds one 64 KiB chunk -/

theorem gapFile_len : gapFile.length = 120000 := by
  rw [gapFile]
  rw [List.length_append, List.length_cons, List.length_replicate, List.length_replicate]

theorem gapFile_drop1 : gapFile.drop 40000
    = List.replicate 65536 97 ++ 10 :: List.replicate 14463 97 := by
  rw [gapFile]
  rw [drop_append_le _ _ 40000 (by rw [List.length_replicate]; omega)]
  rw [drop_replicate']

theorem gapFile_chunk1 : (gapFile.drop 40000).take 65536 = List.replicate 65536 (97 : Nat) := by
  rw [gapFile_drop1]
  exact List.take_left' (by rw [List.length_replicate])

theorem gapFile_mv1 : moveStartToNewline gapFile ⟨40000, 80000⟩ = some ⟨80000, 80000⟩ := by
  simp only [moveStartToNewline]
  rw [if_neg (show ¬(40000 : Nat) = 0 by omega)]
  rw [moveLoop]
  rw [if_neg (show ¬(80000 : Nat) ≤ 40000 by omega)]
  have hminval : min chunkSize (gapFile.length - 40000) = 65536 := by
    rw [gapFile_len]; decide
  rw [hminval, if_neg (show ¬(65536 : Nat) = 0 by omega), gapFile_chunk1,
    idxOf10_replicate 65536 97 (by omega)]
  rw [show (80000 - 40000 : Nat) = 39999 + 1 from rfl]
  exact moveLoop_stop_le gapFile 80000 (40000 + 65536) 39999 (by omega)

theorem gapFile_drop2 : gapFile.drop 80000
    = List.replicate 25536 97 ++ 10 :: List.replicate 14463 97 := by
  rw [gapFile]
  rw [drop_append_le _ _ 80000 (by rw [List.length_replicate]; omega)]
  rw [drop_replicate']

theorem gapFile_idx2 : idxOf10 ((gapFile.drop 80000).take 40000) = some 25536 := by
  have hchunk2 : (gapFile.drop 80000).take 40000
      = List.replicate 25536 97 ++ 10 :: List.replicate 14463 97 := by
    rw [gapFile_drop2]
    refine List.take_of_length_le ?_
    rw [List.length_append, List.length_cons, List.length_replicate, List.length_replicate]
  rw [hchunk2]
  have h := idxOf10_no10_append (List.replicate 14463 97) (List.replicate 25536 97)
    (fun x hx => by have := List.eq_of_mem_replicate hx; omega)
  rw [List.length_replicate] at h
  exact h

theorem gapFile_mv2 : moveStartToNewline gapFile ⟨80000, 120000⟩ = some ⟨105537, 120000⟩ := by
  simp only [moveStartToNewline]
  rw [if_neg (show ¬(80000 : Nat) = 0 by omega)]
  rw [moveLoop]
  rw [if_neg (show ¬(120000 : Nat) ≤ 80000 by omega)]
  have hminval : min chunkSize (gapFile.length - 80000) = 40000 := by
    rw [gapFile_len]; decide
  rw [hminval, if_neg (show ¬(40000 : Nat) = 0 by omega)]
  rw [gapFile_idx2]

theorem splitLoop_zero (file : List Nat) (size part start : Nat) (acc : List Shard) :
    splitLoop file size part 0 start acc = some acc.reverse := by
  rw [splitLoop]

theorem splitLoop_nil_step (file : List Nat) (size part m start e : Nat)
    (he : (if m = 0 ∨ size < start + part then size else start + part) = e) :
    splitLoop file size part (m + 1) start [] = splitLoop file size part m e [⟨start, e⟩] := by
  subst he
  rw [splitLoop]

theorem splitLoop_cons_step (file : List Nat) (size part m start e : Nat) (prev al : Shard)
    (rest : List Shard)
    (he : (if m = 0 ∨ size < start + part then size else start + part) = e)
    (hmv : moveStartToNewline file ⟨start, e⟩ = some al) :
    splitLoop file size part (m + 1) start (prev :: rest)
    = splitLoop file size part m e (al :: ⟨prev.start, al.start⟩ :: rest) := by
  subst he
  rw [splitLoop]
  rw [hmv]

theorem splitToShards_pos (file : List Nat) (size n : Nat) (h0 : ¬ size = 0) :
    splitToShards file size n
    = splitLoop file size
        (if size / (if size < n then 1 else n) = 0 then size
          else size / (if size < n then 1 else n))
        (if size / (if size < n then 1 else n) = 0 then 1 else if size < n then 1 else n) 0 [] := by
  rw [splitToShards, if_neg h0]

theorem gapFile_split0 : splitToShards gapFile 120000 3 = splitLoop gapFile 120000 40000 3 0 [] := by
  rw [splitToShards_pos gapFile 120000 3 (by norm_num)]
  norm_num

theorem gapFile_split1 : splitLoop gapFile 120000 40000 3 0 []
    = splitLoop gapFile 120000 40000 2 40000 [⟨0, 40000⟩] :=
  splitLoop_nil_step gapFile 120000 40000 2 0 40000 (by norm_num)

theorem gapFile_split2 : splitLoop gapFile 120000 40000 2 40000 [⟨0, 40000⟩]
    = splitLoop gapFile 120000 40000 1 80000 [⟨80000, 80000⟩, ⟨0, 80000⟩] :=
  splitLoop_cons_step gapFile 120000 40000 1 40000 80000 ⟨0, 40000⟩ ⟨80000, 80000⟩ []
    (by norm_num) gapFile_mv1

theorem gapFile_split3 : splitLoop gapFile 120000 40000 1 80000 [⟨80000, 80000⟩, ⟨0, 80000⟩]
    = splitLoop gapFile 120000 40000 0 120000 [⟨105537, 120000⟩, ⟨80000, 105537⟩, ⟨0, 80000⟩] :=
  splitLoop_cons_step gapFile 120000 40000 0 80000 120000 ⟨80000, 80000⟩ ⟨105537, 120000⟩
    [⟨0, 80000⟩] (by norm_num) gapFile_mv2

theorem gapFile_split4 : splitLoop gapFile 120000 40000 0 120000
    [⟨105537, 120000⟩, ⟨80000, 105537⟩, ⟨0, 80000⟩]
    = some [⟨0, 80000⟩, ⟨80000, 105537⟩, ⟨105537, 120000⟩] :=
  splitLoop_zero gapFile 120000 40000 120000 [⟨105537, 120000⟩, ⟨80000, 105537⟩, ⟨0, 80000⟩]

theorem gapFile_split : splitToShards gapFile 120000 3
    = some [⟨0, 80000⟩, ⟨80000, 105537⟩, ⟨105537, 120000⟩] :=
  gapFile_split0.trans (gapFile_split1.trans (gapFile_split2.trans
    (gapFile_split3.trans gapFile_split4)))

theorem gapFile_at : gapFile[79999]? = some 97 := by
  rw [gapFile]
  rw [List.getElem?_append_left (by rw [List.length_replicate]; omega)]
  rw [List.getElem?_replicate]
  rw [if_pos (by omega)]

/-- Claim C5 counterexample: on the 120000-byte file whose only newline sits
at offset 105536, three workers produce the plan [0,80000), [80000,105537),
[105537,120000): the shards do tile the file, but the second shard is not
empty and its start 80000 is not one byte past a newline (byte 79999 is the
letter a), because the newline-free gap after the naive boundary 40000 was
longer than one 64 KiB scan chunk, so the chunked search gave up there. -/
theorem c5_counterexample :
    splitToShards gapFile gapFile.length 3
      = some [⟨0, 80000⟩, ⟨80000, 105537⟩, ⟨105537, 120000⟩]
    ∧ ¬ alignedStart gapFile ⟨80000, 105537⟩ := by
  constructor
  · rw [gapFile_len]; exact gapFile_split
  · intro h
    rw [alignedStart] at h
    rcases h with h | ⟨-, h2⟩
    · exact absurd h (by decide)
    · rw [show ((⟨80000, 105537⟩ : Shard).start - 1) = 79999 from rfl] at h2
      rw [gapFile_at] at h2
      exact absurd h2 (by decide)

/-- Claim C5 (amended): for every file, file size > 0 and worker count
n >= 1 the planner succeeds and its shards tile [0, size) exactly — the
first starts at 0, the last stops at the size, consecutive shards are
adjacent and every shard is an interval inside the file — and every shard
after the first is empty, or starts one byte past a newline, or was left
unaligned because the chunked newline search gave up: some earlier
position b opens a newline-free stretch covering both the shard's start
and one full 64 KiB chunk from b (clipped at the end of the file), which
is exactly what the search verified before abandoning the boundary. -/
theorem c5_tiling (file : List Nat) (n : Nat) (hn : 1 ≤ n) (hsz : 0 < file.length) :
    ∃ shs : List Shard, splitToShards file file.length n = some shs ∧
      (∃ hd tl, shs = hd :: tl ∧ hd.start = 0) ∧
      (∀ gl, shs.getLast? = some gl → gl.stop = file.length) ∧
      Chained shs ∧
      (∀ s ∈ shs, WFShard file.length s) ∧
      (∀ s ∈ shs.tail, alignedStart file s ∨ gapStart file s) :=
  splitToShards_spec file n hn hsz

theorem c5_tiling_witness :
    (1 ≤ 1 ∧ 0 < ([49, 10] : List Nat).length) ∧
    (∃ shs : List Shard, splitToShards [49, 10] ([49, 10] : List Nat).length 1 = some shs ∧
      (∃ hd tl, shs = hd :: tl ∧ hd.start = 0) ∧
      (∀ gl, shs.getLast? = some gl → gl.stop = ([49, 10] : List Nat).length) ∧
      Chained shs ∧
      (∀ s ∈ shs, WFShard ([49, 10] : List Nat).length s) ∧
      (∀ s ∈ shs.tail, alignedStart [49, 10] s ∨ gapStart [49, 10] s)) :=
  ⟨⟨by decide, by decide⟩, c5_tiling [49, 10] 1 (by decide) (by decide)⟩

/-- The alignment disjunct of the tiling theorem is not vacuous: a shard
that starts mid-line with a newline right after it is neither empty, nor
newline-aligned, nor a gap start — gapStart demands a newline-free stretch
of a full 64 KiB chunk (or to the end of the file), which byte 2 of this
four-byte file breaks. -/
theorem gapStart_not_trivial :
    ¬(alignedStart [97, 97, 10, 97] ⟨2, 4⟩ ∨ gapStart [97, 97, 10, 97] ⟨2, 4⟩) := by
  rintro (h | ⟨b, hb1, hblt, hall⟩)
  · rw [alignedStart] at h
    rcases h with h | ⟨-, h2⟩
    · exact absurd h (by decide)
    · exact absurd h2 (by decide)
  · have hblt2 : b < 2 := hblt
    have hb : b = 1 := by omega
    subst hb
    exact hall 2 (by omega) (by decide) (by decide)

/-! ### Cancellation -/

theorem scanLoop_cancelled_step (fuel : Nat) (rem : List Nat) (bs : Bitset) (uniq : Nat) :
    scanLoop true (fuel + 1) rem bs uniq = .error .cancelled := by
  rw [scanLoop]
  rw [if_pos rfl]

theorem processShard_scan_error (cancelled : Bool) (file : List Nat) (s : Shard) (bs : Bitset)
    (e : ScanErr)
    (h : scanLoop cancelled ((((file.drop s.start).take (s.stop - s.start)).length) + 1)
        ((file.drop s.start).take (s.stop - s.start)) bs 0 = .error e) :
    processShard cancelled file s bs = .error e := by
  rw [processShard, h]

/-- Claim C9: the scanner checks the cancellation flag before reading any
line, so with the flag tripped every run on a nonempty file returns the
cancellation error without touching a line; in particular the S4 input of
five thousand repetitions of 123.45.67.89 does. -/
theorem c9_cancellation :
    (∀ (file : List Nat) (n : Nat) (bs : Bitset), 1 ≤ n → file ≠ [] →
      ProcessFile true file n bs = .error .cancelled) ∧
    (∀ n : Nat, 1 ≤ n → ProcessFile true fileS4 n Bitset.New = .error .cancelled) := by
  have main : ∀ (file : List Nat) (n : Nat) (bs : Bitset), 1 ≤ n → file ≠ [] →
      ProcessFile true file n bs = .error .cancelled := by
    intro file n bs hn hne
    have hsz : 0 < file.length := List.length_pos.mpr hne
    obtain ⟨shs, hshs, ⟨hd, tl, rfl, -⟩, -, -, -, -⟩ := splitToShards_spec file n hn hsz
    rw [ProcessFile, if_neg (by omega), hshs]
    show (hd :: tl).foldlM (fun b s => processShard true file s b) bs = .error .cancelled
    simp only [List.foldlM_cons]
    rw [processShard_scan_error true file hd bs .cancelled (scanLoop_cancelled_step _ _ _ _)]
    rfl
  exact ⟨main, fun n hn => main fileS4 n Bitset.New hn (by decide)⟩

theorem c9_cancellation_witness :
    (1 ≤ 2 ∧ ([49, 10] : List Nat) ≠ [] ∧
      ProcessFile true [49, 10] 2 Bitset.New = .error .cancelled) ∧
    (1 ≤ 8 ∧ ProcessFile true fileS4 8 Bitset.New = .error .cancelled) :=
  ⟨⟨by decide, by decide, c9_cancellation.1 [49, 10] 2 Bitset.New (by decide) (by decide)⟩,
   ⟨by decide, c9_cancellation.2 8 (by decide)⟩⟩

/-! ### The scanner on malformed lines -/

theorem scanLoop_skip (fuel : Nat) (rem : List Nat) (bs : Bitset) (uniq idx : Nat)
    (hidx : idxOf10 (rem.take bufCap) = some idx)
    (hparse : IPv4ByteToUint32 (trimCRLF (rem.take (idx + 1))) = none) :
    scanLoop false (fuel + 1) rem bs uniq = scanLoop false fuel (rem.drop (idx + 1)) bs uniq := by
  rw [scanLoop]
  rw [if_neg (show ¬(false = true) by simp)]
  rw [hidx]
  dsimp only
  rw [hparse]

theorem scanLoop_bufferFull (fuel : Nat) (rem : List Nat) (bs : Bitset) (uniq : Nat)
    (hidx : idxOf10 (rem.take bufCap) = none) (hlen : bufCap ≤ rem.length) :
    scanLoop false (fuel + 1) rem bs uniq = .error .bufferFull := by
  rw [scanLoop]
  rw [if_neg (show ¬(false = true) by simp)]
  rw [hidx]
  dsimp only
  rw [if_pos hlen]

theorem idxOf10_take_no10 (bad rest : List Nat) (m : Nat) (hno : ∀ x ∈ bad, x ≠ 10)
    (hlen : bad.length < m) :
    idxOf10 ((bad ++ 10 :: rest).take m) = some bad.length := by
  rw [List.take_append_eq_append_take]
  rw [List.take_of_length_le (by omega)]
  obtain ⟨k, hk⟩ : ∃ k, m - bad.length = k + 1 := ⟨m - bad.length - 1, by omega⟩
  rw [hk, List.take_succ_cons]
  exact idxOf10_no10_append _ bad hno

/-- Claim C7 (amended): a line that fits the scanner's 2 MiB buffer and does
not parse as a dotted-quad address is silently skipped: the scanner consumes
it, leaves the bitset and the new-count unchanged, and carries on with the
rest of the input. -/
theorem c7_malformed_skipped (fuel : Nat) (bad rest : List Nat) (bs : Bitset) (uniq : Nat)
    (hno : ∀ x ∈ bad, x ≠ 10) (hlen : bad.length < bufCap)
    (hparse : IPv4ByteToUint32 (trimCRLF (bad ++ [10])) = none) :
    scanLoop false (fuel + 1) (bad ++ 10 :: rest) bs uniq = scanLoop false fuel rest bs uniq := by
  have hp : IPv4ByteToUint32 (trimCRLF ((bad ++ 10 :: rest).take (bad.length + 1))) = none := by
    rw [take_append_cons]
    exact hparse
  rw [scanLoop_skip fuel (bad ++ 10 :: rest) bs uniq bad.length
    (idxOf10_take_no10 bad rest bufCap hno hlen) hp]
  rw [drop_append_cons]

theorem c7_malformed_skipped_witness :
    ((∀ x ∈ ([103, 97, 114, 98, 97, 103, 101] : List Nat), x ≠ 10) ∧
      ([103, 97, 114, 98, 97, 103, 101] : List Nat).length < bufCap ∧
      IPv4ByteToUint32 (trimCRLF ([103, 97, 114, 98, 97, 103, 101] ++ [10])) = none) ∧
    scanLoop false (0 + 1) ([103, 97, 114, 98, 97, 103, 101] ++ 10 :: []) Bitset.New 0
      = scanLoop false 0 [] Bitset.New 0 :=
  ⟨⟨by decide, by decide, by decide⟩,
   c7_malformed_skipped 0 [103, 97, 114, 98, 97, 103, 101] [] Bitset.New 0
     (by decide) (by decide) (by decide)⟩

theorem hugeLineFile_len : hugeLineFile.length = 2097161 := by
  rw [hugeLineFile, List.length_append, List.length_replicate, List.length_cons]
  decide

theorem hugeLineFile_take : hugeLineFile.take bufCap = List.replicate bufCap 97 := by
  rw [hugeLineFile]
  exact List.take_left' (by rw [List.length_replicate])

theorem hugeLineFile_split : splitToShards hugeLineFile hugeLineFile.length 1
    = some [⟨0, 2097161⟩] := by
  rw [hugeLineFile_len]
  rw [splitToShards_pos hugeLineFile 2097161 1 (by norm_num)]
  norm_num
  rw [show (1 : Nat) = 0 + 1 from rfl]
  rw [splitLoop_nil_step hugeLineFile 2097161 2097161 0 0 2097161 (by norm_num)]
  rw [splitLoop_zero]
  rfl

/-- Claim C7 counterexample: a malformed line longer than the scanner's
2 MiB buffer does surface as an error: on the file that starts with 2 MiB of
the letter a before the first newline, the whole run fails with the
buffer-full error instead of skipping the line. -/
theorem c7_counterexample : ProcessFile false hugeLineFile 1 Bitset.New = .error .bufferFull := by
  have hsec : (hugeLineFile.drop 0).take (2097161 - 0) = hugeLineFile := by
    rw [List.drop_zero]
    exact List.take_of_length_le (by rw [hugeLineFile_len])
  have hps : processShard false hugeLineFile ⟨0, 2097161⟩ Bitset.New = .error .bufferFull := by
    refine processShard_scan_error false hugeLineFile ⟨0, 2097161⟩ Bitset.New .bufferFull ?_
    show scanLoop false (((hugeLineFile.drop 0).take (2097161 - 0)).length + 1)
      ((hugeLineFile.drop 0).take (2097161 - 0)) Bitset.New 0 = .error .bufferFull
    rw [hsec, hugeLineFile_len]
    refine scanLoop_bufferFull 2097161 hugeLineFile Bitset.New 0 ?_ ?_
    · rw [hugeLineFile_take]
      exact idxOf10_replicate bufCap 97 (by omega)
    · rw [hugeLineFile_len]
      decide
  rw [ProcessFile]
  rw [if_neg (by rw [hugeLineFile_len]; decide)]
  rw [hugeLineFile_split]
  show ([⟨0, 2097161⟩] : List Shard).foldlM
    (fun b s => processShard false hugeLineFile s b) Bitset.New = .error .bufferFull
  simp only [List.foldlM_cons, List.foldlM_nil]
  rw [hps]
  rfl

/-! ### End-to-end counting on scenario S1 -/

theorem splitToShards_large (file : List Nat) (n : Nat) (hsz : 0 < file.length)
    (h : file.length < n) :
    splitToShards file file.length n = splitToShards file file.length 1 := by
  rw [splitToShards_pos file file.length n (by omega),
    splitToShards_pos file file.length 1 (by omega)]
  rw [if_pos h, if_neg (show ¬ file.length < 1 by omega)]

/-- Claim C1: running the processor on the S1 bytes
1.1.1.1, 2.2.2.2 with CRLF, garbage, 1.1.1.1 again, 255.255.255.255
succeeds with unique count 3 for every worker count n >= 1: the duplicate
counts once, the garbage line is ignored and the CRLF line is trimmed. -/
theorem c1_end_to_end (n : Nat) (hn : 1 ≤ n) : runCount s1Bytes n = some 3 := by
  have hlen : s1Bytes.length = 49 := by decide
  by_cases h : n < 50
  · have hall : ∀ k, k < 49 → runCount s1Bytes (k + 1) = some 3 := by decide
    have := hall (n - 1) (by omega)
    rwa [show n - 1 + 1 = n by omega] at this
  · have hPF : ProcessFile false s1Bytes n Bitset.New = ProcessFile false s1Bytes 1 Bitset.New := by
      rw [ProcessFile, ProcessFile]
      rw [splitToShards_large s1Bytes n (by rw [hlen]; omega) (by rw [hlen]; omega)]
    have h1 : runCount s1Bytes 1 = some 3 := by decide
    calc runCount s1Bytes n = runCount s1Bytes 1 := by rw [runCount, runCount, hPF]
      _ = some 3 := h1

theorem c1_end_to_end_witness : 1 ≤ 4 ∧ runCount s1Bytes 4 = some 3 :=
  ⟨by decide, c1_end_to_end 4 (by decide)⟩
